import Mathlib

/-!
Shallow embedding of `src/quantity.py`: a symbolic physical-quantity
library with a dimension vector (`Dim`, Python class `Dim`), a tagged
expression tree (`Quant`, Python class `Quant` with tag `_Qtag`), the
arithmetic operators `+ * /` with their normalization passes
(flatten, pairwise reduce, identity removal, stable sort by name), the
rewrite/factor hooks (`_rewrite_add`, `_rewrite_mul`, `_factor`) and
the structural equality `__eq__`.

Machine integers of the dimension vector are modelled as `Int`
(Python ints are unbounded), `fractions.Fraction` as `Rat`, Python
`None` as `Option.none`.  Python `assert` failures and the
`ZeroDivisionError` raised by `1 / Fraction(0)` are modelled by
`Except QErr`.
-/

namespace Quantity

/-- Python class `Dim` (quantity.py lines 16-66): a dimension vector of
`length`, `mass`, `time` exponents.  `Dim.__init__` takes the components
in this order; `Quant.__init__` builds `Dim(dim[0], dim[1], dim[2])`
from a tuple. -/
structure Dim where
  length : Int
  mass : Int
  time : Int
deriving DecidableEq, Repr

/-- Python `Dim.__neg__` (lines 48-49): componentwise sign flip. -/
def Dim.neg (d : Dim) : Dim := ⟨-d.length, -d.mass, -d.time⟩

/-- Python `_Qtag` (quantity.py lines 69-75): the internal kind tag. -/
inductive Qtag where
  | CST
  | VAR
  | ADD
  | MUL
  | DIV
deriving DecidableEq, Repr

/-- Python class `Quant` (quantity.py line 78): fields `name`,
`operands`, `dim`, `tag`, `value`; `value` is `None` unless the tag is
`CST` (enforced by `__init__`, see `mkQ`). -/
inductive Quant where
  | mk (name : String) (operands : List Quant) (dim : Dim) (tag : Qtag)
      (value : Option Rat)
deriving Repr

/-- Field accessor `self.name`. -/
def Quant.name : Quant → String
  | .mk n _ _ _ _ => n

/-- Field accessor `self.operands`. -/
def Quant.operands : Quant → List Quant
  | .mk _ ops _ _ _ => ops

/-- Field accessor `self.dim`. -/
def Quant.dim : Quant → Dim
  | .mk _ _ d _ _ => d

/-- Field accessor `self.tag`. -/
def Quant.tag : Quant → Qtag
  | .mk _ _ _ t _ => t

/-- Field accessor `self.value`. -/
def Quant.value : Quant → Option Rat
  | .mk _ _ _ _ v => v

/-- Python `Quant.__init__` (quantity.py lines 80-92): stores the given
fields and sets `self.value = value if self.tag is _Qtag.CST else None`.
The `value` parameter defaults to `Fraction(0)`. -/
def mkQ (name : String) (operands : List Quant) (dim : Dim) (tag : Qtag)
    (value : Rat := 0) : Quant :=
  .mk name operands dim tag (if tag = .CST then some value else none)

/-- Python classmethod `Quant.length` (lines 94-100). -/
def Quant.length (name : String) : Quant := mkQ name [] ⟨1, 0, 0⟩ .VAR

/-- Python classmethod `Quant.mass` (lines 102-108). -/
def Quant.mass (name : String) : Quant := mkQ name [] ⟨0, 1, 0⟩ .VAR

/-- Python classmethod `Quant.time` (lines 110-116). -/
def Quant.time (name : String) : Quant := mkQ name [] ⟨0, 0, 1⟩ .VAR

/-- Python classmethod `Quant.from_const` (lines 118-130): a constant
with the synthetic name `__constant__`; `dim` defaults to `(0,0,0)`. -/
def Quant.from_const (value : Rat) (dim : Dim := ⟨0, 0, 0⟩) : Quant :=
  mkQ "__constant__" [] dim .CST value

/-- Python property `Quant.is_const` (lines 132-134). -/
def Quant.is_const (q : Quant) : Bool := q.tag == .CST

/-- Python property `Quant.is_var` (lines 136-138). -/
def Quant.is_var (q : Quant) : Bool := q.tag == .VAR

/-- Python property `Quant.is_sum` (lines 140-142). -/
def Quant.is_sum (q : Quant) : Bool := q.tag == .ADD

/-- Python property `Quant.is_prod` (lines 144-146). -/
def Quant.is_prod (q : Quant) : Bool := q.tag == .MUL

/-- Python property `Quant.is_frac` (lines 148-150). -/
def Quant.is_frac (q : Quant) : Bool := q.tag == .DIV

mutual

/-- Python `Quant.__eq__` restricted to `Quant` operands
(quantity.py lines 162-180): constants compare by rational value,
variables by name, sums/products by a truncating positional `zip` of
their children (`all(x == y for x, y in zip(...))`), fractions by both
components positionally; any cross-kind pair is unequal.  On a
fraction with fewer than two operands Python would raise `IndexError`
(unreachable through the API); that branch is modelled as `false`. -/
def beq : Quant → Quant → Bool
  | .mk n1 o1 _ t1 v1, .mk n2 o2 _ t2 v2 =>
    match t1, t2 with
    | .CST, .CST => v1 == v2
    | .VAR, .VAR => n1 == n2
    | .ADD, .ADD => beqList o1 o2
    | .MUL, .MUL => beqList o1 o2
    | .DIV, .DIV =>
      match o1, o2 with
      | x1 :: x2 :: _, y1 :: y2 :: _ => beq x1 y1 && beq x2 y2
      | _, _ => false
    | _, _ => false

/-- Model of `all(x == y for x, y in zip(xs, ys))`: Python `zip`
truncates to the shorter list and `all` of an empty sequence is
`True`. -/
def beqList : List Quant → List Quant → Bool
  | x :: xs, y :: ys => beq x y && beqList xs ys
  | _, _ => true

end

/-- Python `Quant.__eq__` first branch (lines 162-164): comparison with
a non-`Quant` operand returns `self.value == other`; the external
operand is a Python number (`some n`) or `None` (`none`). -/
def beqExt (q : Quant) (other : Option Rat) : Bool := q.value == other

/-! ### String ordering

Python's `list.sort(key=lambda term: term.name)` compares the names as
Python strings, i.e. lexicographically by Unicode code point.  We spell
that order out on `String.data` so that it is kernel-reducible. -/

/-- Lexicographic `≤` on character lists, comparing code points. -/
def strLe : List Char → List Char → Bool
  | [], _ => true
  | _ :: _, [] => false
  | x :: xs, y :: ys =>
    if x.toNat < y.toNat then true
    else if y.toNat < x.toNat then false
    else strLe xs ys

/-- Python string `≤` (lexicographic by code point), used by the stable
sort on term names. -/
def nameLe (a b : String) : Bool := strLe a.data b.data

/-! ### Sizes, flattening, reduction, sorting -/

mutual

/-- Node count of a quantity tree (termination measure for the
flattening loop). -/
def qsize : Quant → Nat
  | .mk _ ops _ _ _ => 1 + lsize ops

/-- Total node count of a list of quantity trees. -/
def lsize : List Quant → Nat
  | [] => 0
  | q :: qs => qsize q + lsize qs

end

/-- One pass of the flattening loop body (quantity.py lines 225 and
285): `sum((x.operands if p(x) else [x] for x in xs), [])`, where `p`
is `is_sum` for addition and `is_prod` for multiplication. -/
def flattenStep (p : Quant → Bool) : List Quant → List Quant
  | [] => []
  | x :: xs => (if p x then x.operands else [x]) ++ flattenStep p xs

/-- Fuelled form of the `while any(p(x) for x in xs)` loop of the local
`flatten` helpers (quantity.py lines 223-226 and 283-286).  Each pass
strictly decreases `lsize`, so `lsize xs` units of fuel always reach
the loop's fixpoint (`flattenLoop_fix` below). -/
def flattenFuel (p : Quant → Bool) : Nat → List Quant → List Quant
  | 0, xs => xs
  | n + 1, xs => if xs.any p then flattenFuel p n (flattenStep p xs) else xs

/-- The local `flatten` helper of `__add__`/`__mul__`. -/
def flattenLoop (p : Quant → Bool) (xs : List Quant) : List Quant :=
  flattenFuel p (lsize xs) xs

/-- Inner loop of the reduce pass (quantity.py lines 233-238 and
293-298): scan the accepted terms `ys`, and at the first index whose
rewrite with `x` succeeds replace that entry; `none` when no rewrite
applies. -/
def mergeInto (rw : Quant → Quant → Option Quant) (x : Quant) :
    List Quant → Option (List Quant)
  | [] => none
  | y :: ys =>
    match rw x y with
    | some z => some (z :: ys)
    | none =>
      match mergeInto rw x ys with
      | some ys' => some (y :: ys')
      | none => none

/-- Outer loop of the reduce pass (quantity.py lines 231-240 and
291-300): fold the flattened terms into the accumulator `ys`,
appending a term when no existing entry merges with it. -/
def reduceAux (rw : Quant → Quant → Option Quant) :
    List Quant → List Quant → List Quant
  | ys, [] => ys
  | ys, x :: xs =>
    match mergeInto rw x ys with
    | some ys' => reduceAux rw ys' xs
    | none => reduceAux rw (ys ++ [x]) xs

/-- The whole reduce pass, starting from an empty accumulator
(`ys: List[Quant] = []`). -/
def reduceTerms (rw : Quant → Quant → Option Quant) (xs : List Quant) :
    List Quant :=
  reduceAux rw [] xs

/-- Insert a term into an already sorted-by-name list, after every
entry whose name is `≤` the new term's name: this is the stable
ascending insertion realizing Python's stable
`terms.sort(key=lambda term: term.name)`. -/
def insName (x : Quant) : List Quant → List Quant
  | [] => [x]
  | y :: ys => if nameLe y.name x.name then y :: insName x ys else x :: y :: ys

/-- Python `terms.sort(key=lambda term: term.name)` (quantity.py lines
245 and 305): stable sort by display name. -/
def sortName (xs : List Quant) : List Quant :=
  xs.foldl (fun acc x => insName x acc) []

/-- Adjacent-pairs sortedness by name (specification side of
`sortName`). -/
def sortedNames : List Quant → Bool
  | [] => true
  | [_] => true
  | x :: y :: rest => nameLe x.name y.name && sortedNames (y :: rest)

/-! ### The rewrite/factor hooks -/

/-- Python `_rewrite_add` (quantity.py lines 367-371): its docstring
says "rewrite sum form", but its body returns `None` for every pair of
terms, so the reduce pass of `__add__` never merges anything. -/
def rewrite_add (_x _y : Quant) : Option Quant := none

/-- Python `_rewrite_mul` (quantity.py lines 374-378): its docstring
says "rewrite product form", but its body returns `None` for every
pair of terms, so the reduce pass of `__mul__` never merges anything. -/
def rewrite_mul (_x _y : Quant) : Option Quant := none

/-- Python `_factor` (quantity.py lines 358-364): its docstring says
"factor two quantities and find greatest common division", but its
body returns `(1, x, y)`: the extracted common factor is always the
dimensionless constant one and the cofactors are the operands
unchanged. -/
def factor (x y : Quant) : Quant × Quant × Quant :=
  (Quant.from_const 1, x, y)

/-! ### The arithmetic operators -/

/-- Python `1 / denom.value` (quantity.py line 342): exact
`fractions.Fraction` division by a nonzero rational.  It is spelled
with `Rat.divInt` so the kernel can evaluate it; `oneDiv_eq_one_div`
below proves it equal to `1 / v`. -/
def oneDiv (v : Rat) : Rat := Rat.divInt v.den v.num

/-- Faithfulness of `oneDiv`: it is exactly the rational `1 / v`. -/
theorem oneDiv_eq_one_div (v : Rat) : oneDiv v = 1 / v := by
  rw [one_div, Rat.inv_def']
  rfl

/-- An operand of a Python binary operator: either another `Quant` or
a bare number (Python coerces it with `Quant.from_const`). -/
inductive Operand where
  | quant (q : Quant)
  | num (n : Rat)

/-- Fatal failures: Python `AssertionError` from the dimension check
of `__add__`, and `ZeroDivisionError` from `1 / Fraction(0)` in
`__truediv__`. -/
inductive QErr where
  | dimMismatch
  | zeroDivision
deriving DecidableEq, Repr

/-- Python `Quant.__add__` (quantity.py lines 212-257).  A non-`Quant`
operand is coerced by `Quant.from_const(other, dim)` where `dim` is
**self's** dimension tuple (line 215-218); the `assert self.dim ==
other.dim` is the dimension-mismatch failure; then flatten over sums,
reduce with `_rewrite_add`, drop zero-valued constants, stable-sort by
name, and collapse empty/singleton term lists. -/
def Quant.add (self : Quant) (other : Operand) : Except QErr Quant :=
  let dim := self.dim
  let o := match other with
    | .quant q => q
    | .num n => Quant.from_const n dim
  if self.dim = o.dim then
    let xs := flattenLoop Quant.is_sum [self, o]
    let ys := reduceTerms rewrite_add xs
    let terms := ys.filter fun y => !(y.is_const && y.value == some 0)
    let terms := sortName terms
    match terms with
    | [] => .ok (Quant.from_const 0 dim)
    | [t] => .ok t
    | t1 :: t2 :: rest => .ok (mkQ "__sum__" (t1 :: t2 :: rest) dim .ADD)
  else
    .error .dimMismatch

/-- Python `Quant.__mul__` (quantity.py lines 272-317).  A non-`Quant`
operand is coerced to a dimensionless constant; the result dimension
is the componentwise sum; flatten over products, reduce with
`_rewrite_mul`, drop one-valued dimensionless constants, stable-sort
by name, and collapse empty/singleton term lists.  No assertion can
fail, so the operation is total. -/
def Quant.mul (self : Quant) (other : Operand) : Quant :=
  let o := match other with
    | .quant q => q
    | .num n => Quant.from_const n
  let dim : Dim := ⟨self.dim.length + o.dim.length,
                    self.dim.mass + o.dim.mass,
                    self.dim.time + o.dim.time⟩
  let xs := flattenLoop Quant.is_prod [self, o]
  let ys := reduceTerms rewrite_mul xs
  let terms := ys.filter fun y =>
    !(y.is_const && y.value == some 1 && y.dim == (⟨0, 0, 0⟩ : Dim))
  let terms := sortName terms
  match terms with
  | [] => Quant.from_const 1 dim
  | [t] => t
  | t1 :: t2 :: rest => mkQ "__mul__" (t1 :: t2 :: rest) dim .MUL

/-- Python `Quant.__truediv__` (quantity.py lines 324-349).  A
non-`Quant` operand is coerced to a dimensionless constant; the result
dimension is the componentwise difference; `_factor` yields the
(trivial) cofactors; a zero-constant numerator short-circuits to the
zero constant; a constant denominator (whose `value` is never `None`
in Python, line 340) folds its reciprocal into a constant factor —
with `1 / Fraction(0)` raising `ZeroDivisionError`, modelled as
`.error .zeroDivision`; otherwise an explicit fraction node is
built. -/
def Quant.div (self : Quant) (other : Operand) : Except QErr Quant :=
  let o := match other with
    | .quant q => q
    | .num n => Quant.from_const n
  let dim : Dim := ⟨self.dim.length - o.dim.length,
                    self.dim.mass - o.dim.mass,
                    self.dim.time - o.dim.time⟩
  match factor self o with
  | (_, numer, denom) =>
    if numer.is_const && numer.value == some 0 then
      .ok (Quant.from_const 0 dim)
    else
      match denom.tag, denom.value with
      | .CST, some v =>
        if v = 0 then
          .error .zeroDivision
        else
          .ok (numer.mul (.quant (Quant.from_const (oneDiv v) (Dim.neg o.dim))))
      | _, _ => .ok (mkQ "__div__" [numer, denom] dim .DIV)

/-! ### Specification-side predicates -/

mutual

/-- Value/tag invariant of `Quant.__init__`: the `value` field holds a
rational exactly on constants, `None` on every other node, recursively
through the tree. -/
def valueInv : Quant → Bool
  | .mk _ ops _ t v => (v.isSome == (t == .CST)) && valueInvList ops

/-- List form of `valueInv`. -/
def valueInvList : List Quant → Bool
  | [] => true
  | q :: qs => valueInv q && valueInvList qs

end

/-- Shape part of the canonical-form invariant of one node (spec §3):
constants and variables are leaves (constants carry a value); a sum has
at least two children, none itself a sum, none a zero-valued constant,
sorted by name; a product has at least two children, none itself a
product, none a one-valued dimensionless constant, sorted by name; a
fraction has exactly two children. -/
def canonicalShape (t : Qtag) (ops : List Quant) (v : Option Rat) : Bool :=
  match t with
  | .CST => ops.isEmpty && v.isSome
  | .VAR => ops.isEmpty
  | .ADD =>
    decide (2 ≤ ops.length) &&
      ops.all (fun c => !c.is_sum && !(c.is_const && c.value == some 0)) &&
      sortedNames ops
  | .MUL =>
    decide (2 ≤ ops.length) &&
      ops.all (fun c =>
        !c.is_prod &&
          !(c.is_const && c.value == some 1 && c.dim == (⟨0, 0, 0⟩ : Dim))) &&
      sortedNames ops
  | .DIV => ops.length == 2

mutual

/-- Canonical-form invariant (spec §3 "invariants enforced by
construction"), recursively through the tree. -/
def canonical : Quant → Bool
  | .mk _ ops _ t v => canonicalShape t ops v && canonicalList ops

/-- List form of `canonical`. -/
def canonicalList : List Quant → Bool
  | [] => true
  | q :: qs => canonical q && canonicalList qs

end

/-- Quantities reachable through the public constructors and the
arithmetic operators of `Quant` (subtraction, negation and the
reflected operators are compositions of these). -/
inductive Reachable : Quant → Prop where
  | lengthVar (n : String) : Reachable (Quant.length n)
  | massVar (n : String) : Reachable (Quant.mass n)
  | timeVar (n : String) : Reachable (Quant.time n)
  | constQ (v : Rat) (d : Dim) : Reachable (Quant.from_const v d)
  | addQ (x y r : Quant) : Reachable x → Reachable y →
      x.add (.quant y) = .ok r → Reachable r
  | addNum (x : Quant) (n : Rat) (r : Quant) : Reachable x →
      x.add (.num n) = .ok r → Reachable r
  | mulQ (x y : Quant) : Reachable x → Reachable y →
      Reachable (x.mul (.quant y))
  | mulNum (x : Quant) (n : Rat) : Reachable x → Reachable (x.mul (.num n))
  | divQ (x y r : Quant) : Reachable x → Reachable y →
      x.div (.quant y) = .ok r → Reachable r
  | divNum (x : Quant) (n : Rat) (r : Quant) : Reachable x →
      x.div (.num n) = .ok r → Reachable r

/-! ### Field-evaluation lemmas -/

@[simp] theorem from_const_name (v : Rat) (d : Dim) :
    (Quant.from_const v d).name = "__constant__" := rfl

@[simp] theorem from_const_operands (v : Rat) (d : Dim) :
    (Quant.from_const v d).operands = [] := rfl

@[simp] theorem from_const_dim (v : Rat) (d : Dim) :
    (Quant.from_const v d).dim = d := rfl

@[simp] theorem from_const_tag (v : Rat) (d : Dim) :
    (Quant.from_const v d).tag = .CST := rfl

@[simp] theorem from_const_value (v : Rat) (d : Dim) :
    (Quant.from_const v d).value = some v := rfl

@[simp] theorem from_const_is_const (v : Rat) (d : Dim) :
    (Quant.from_const v d).is_const = true := rfl

@[simp] theorem from_const_is_sum (v : Rat) (d : Dim) :
    (Quant.from_const v d).is_sum = false := rfl

@[simp] theorem from_const_is_prod (v : Rat) (d : Dim) :
    (Quant.from_const v d).is_prod = false := rfl

/-! ### Order lemmas for the name comparison -/

theorem charEq_of_not_lt {x y : Char} (h1 : ¬x.toNat < y.toNat)
    (h2 : ¬y.toNat < x.toNat) : x = y :=
  Char.eq_of_val_eq (UInt32.toNat.inj
    (Nat.le_antisymm (Nat.le_of_not_lt h2) (Nat.le_of_not_lt h1)))

theorem strLe_total (a b : List Char) : strLe a b = true ∨ strLe b a = true := by
  induction a generalizing b with
  | nil => left; rfl
  | cons x xs ih =>
    cases b with
    | nil => right; rfl
    | cons y ys =>
      by_cases h1 : x.toNat < y.toNat
      · left; simp [strLe, h1]
      · by_cases h2 : y.toNat < x.toNat
        · right; simp [strLe, h2]
        · rcases ih ys with h | h
          · left; simp [strLe, h1, h2, h]
          · right; simp [strLe, h1, h2, h]

theorem strLe_antisymm {a b : List Char} (h1 : strLe a b = true)
    (h2 : strLe b a = true) : a = b := by
  induction a generalizing b with
  | nil =>
    cases b with
    | nil => rfl
    | cons y ys => simp [strLe] at h2
  | cons x xs ih =>
    cases b with
    | nil => simp [strLe] at h1
    | cons y ys =>
      by_cases hxy : x.toNat < y.toNat
      · have : ¬y.toNat < x.toNat := Nat.lt_asymm hxy
        simp [strLe, hxy, this] at h2
      · by_cases hyx : y.toNat < x.toNat
        · simp [strLe, hxy, hyx] at h1
        · have hc : x = y := charEq_of_not_lt hxy hyx
          simp [strLe, hxy, hyx] at h1 h2
          rw [hc, ih h1 h2]

theorem strLe_trans {a b c : List Char} (h1 : strLe a b = true)
    (h2 : strLe b c = true) : strLe a c = true := by
  induction a generalizing b c with
  | nil => rfl
  | cons x xs ih =>
    cases b with
    | nil => simp [strLe] at h1
    | cons y ys =>
      cases c with
      | nil => simp [strLe] at h2
      | cons z zs =>
        by_cases hxy : x.toNat < y.toNat
        · by_cases hyz : y.toNat < z.toNat
          · have : x.toNat < z.toNat := Nat.lt_trans hxy hyz
            simp [strLe, this]
          · by_cases hzy : z.toNat < y.toNat
            · simp [strLe, hyz, hzy] at h2
            · have : y = z := charEq_of_not_lt hyz hzy
              subst this
              simp [strLe, hxy]
        · by_cases hyx : y.toNat < x.toNat
          · simp [strLe, hxy, hyx] at h1
          · have hc : x = y := charEq_of_not_lt hxy hyx
            subst hc
            have e0 : strLe (x :: xs) (x :: ys) = strLe xs ys := by
              simp [strLe, hxy]
            rw [e0] at h1
            by_cases hxz : x.toNat < z.toNat
            · simp [strLe, hxz]
            · by_cases hzx : z.toNat < x.toNat
              · simp [strLe, hxz, hzx] at h2
              · have e1 : strLe (x :: xs) (z :: zs) = strLe xs zs := by
                  simp [strLe, hxz, hzx]
                have e2 : strLe (x :: ys) (z :: zs) = strLe ys zs := by
                  simp [strLe, hxz, hzx]
                rw [e2] at h2
                rw [e1]
                exact ih h1 h2

theorem nameLe_total (a b : String) : nameLe a b = true ∨ nameLe b a = true :=
  strLe_total a.data b.data

theorem nameLe_antisymm {a b : String} (h1 : nameLe a b = true)
    (h2 : nameLe b a = true) : a = b := by
  cases a with
  | mk da =>
    cases b with
    | mk db => exact congrArg String.mk (strLe_antisymm h1 h2)

theorem nameLe_trans {a b c : String} (h1 : nameLe a b = true)
    (h2 : nameLe b c = true) : nameLe a c = true :=
  strLe_trans h1 h2

/-! ### The reduce pass never merges (both rewrite hooks return `None`) -/

theorem mergeInto_eq_none (rw : Quant → Quant → Option Quant)
    (hrw : ∀ a b, rw a b = none) (x : Quant) (ys : List Quant) :
    mergeInto rw x ys = none := by
  induction ys with
  | nil => rfl
  | cons y ys ih => simp [mergeInto, hrw, ih]

theorem reduceAux_eq_append (rw : Quant → Quant → Option Quant)
    (hrw : ∀ a b, rw a b = none) (xs ys : List Quant) :
    reduceAux rw ys xs = ys ++ xs := by
  induction xs generalizing ys with
  | nil => simp [reduceAux]
  | cons x xs ih => simp [reduceAux, mergeInto_eq_none rw hrw, ih]

theorem reduceTerms_add_id (xs : List Quant) : reduceTerms rewrite_add xs = xs := by
  simpa [reduceTerms] using reduceAux_eq_append rewrite_add (fun _ _ => rfl) xs []

theorem reduceTerms_mul_id (xs : List Quant) : reduceTerms rewrite_mul xs = xs := by
  simpa [reduceTerms] using reduceAux_eq_append rewrite_mul (fun _ _ => rfl) xs []

/-! ### Flattening lemmas -/

theorem qsize_pos (q : Quant) : 0 < qsize q := by
  cases q with
  | mk n ops d t v => simp [qsize]

theorem flattenFuel_of_any_eq_false {p : Quant → Bool} {xs : List Quant}
    (h : xs.any p = false) (n : Nat) : flattenFuel p n xs = xs := by
  cases n with
  | zero => rfl
  | succ m => simp [flattenFuel, h]

theorem flattenLoop_of_any_eq_false {p : Quant → Bool} {xs : List Quant}
    (h : xs.any p = false) : flattenLoop p xs = xs :=
  flattenFuel_of_any_eq_false h _

theorem flattenLoop_pair_left {p : Quant → Bool} (x c : Quant)
    (hx : p x = true) (hc : p c = false)
    (hops : (x.operands ++ [c]).any p = false) :
    flattenLoop p [x, c] = x.operands ++ [c] := by
  have hlen : lsize [x, c] = qsize x + (qsize c + 0) := rfl
  obtain ⟨m, hm⟩ : ∃ m, lsize [x, c] = m + 1 := by
    refine ⟨qsize x + qsize c - 1, ?_⟩
    have h1 := qsize_pos x
    have h2 := qsize_pos c
    omega
  have hany : ([x, c]).any p = true := by simp [hx]
  have hstep : flattenStep p [x, c] = x.operands ++ [c] := by
    simp [flattenStep, hx, hc]
  unfold flattenLoop
  rw [hm]
  simp only [flattenFuel, hany, if_pos]
  rw [hstep]
  exact flattenFuel_of_any_eq_false hops m

theorem lsize_append (xs ys : List Quant) :
    lsize (xs ++ ys) = lsize xs + lsize ys := by
  induction xs with
  | nil => simp [lsize]
  | cons x xs ih => simp [lsize, ih]; omega

theorem lsize_flattenStep_le (p : Quant → Bool) (xs : List Quant) :
    lsize (flattenStep p xs) ≤ lsize xs := by
  induction xs with
  | nil => exact Nat.le_refl _
  | cons x xs ih =>
    show lsize ((if p x then x.operands else [x]) ++ flattenStep p xs) ≤
      qsize x + lsize xs
    rw [lsize_append]
    have hx : lsize (if p x then x.operands else [x]) ≤ qsize x := by
      by_cases hp : p x = true
      · rw [if_pos hp]
        cases x with
        | mk n ops d t v =>
          show lsize ops ≤ 1 + lsize ops
          omega
      · rw [if_neg hp]
        show qsize x + lsize [] ≤ qsize x
        simp [lsize]
    omega

theorem lsize_flattenStep_lt {p : Quant → Bool} {xs : List Quant}
    (h : xs.any p = true) : lsize (flattenStep p xs) < lsize xs := by
  induction xs with
  | nil => simp at h
  | cons x xs ih =>
    show lsize ((if p x then x.operands else [x]) ++ flattenStep p xs) <
      qsize x + lsize xs
    rw [lsize_append]
    by_cases hp : p x = true
    · have hx : lsize (if p x then x.operands else [x]) < qsize x := by
        rw [if_pos hp]
        cases x with
        | mk n ops d t v =>
          show lsize ops < 1 + lsize ops
          omega
      have := lsize_flattenStep_le p xs
      omega
    · have hrest : xs.any p = true := by
        rcases List.any_eq_true.mp h with ⟨z, hz, hpz⟩
        rcases List.mem_cons.mp hz with rfl | hz'
        · exact absurd hpz hp
        · exact List.any_eq_true.mpr ⟨z, hz', hpz⟩
      have hx : lsize (if p x then x.operands else [x]) = qsize x := by
        rw [if_neg hp]
        show qsize x + lsize [] = qsize x
        simp [lsize]
      have := ih hrest
      omega

theorem lsize_eq_zero {xs : List Quant} (h : lsize xs = 0) : xs = [] := by
  cases xs with
  | nil => rfl
  | cons x rest =>
    have := qsize_pos x
    have hx : lsize (x :: rest) = qsize x + lsize rest := rfl
    omega

/-- The fuel `lsize xs` always suffices: the fuelled flattening reaches
the fixpoint of the source's `while` loop — no element of the result
satisfies the flattening predicate. -/
theorem flattenLoop_fix (p : Quant → Bool) (xs : List Quant) :
    (flattenLoop p xs).any p = false := by
  suffices hgen : ∀ (n : Nat) (ys : List Quant), lsize ys ≤ n →
      (flattenFuel p n ys).any p = false by
    exact hgen (lsize xs) xs (Nat.le_refl _)
  intro n
  induction n with
  | zero =>
    intro ys hy
    have : ys = [] := lsize_eq_zero (Nat.le_zero.mp hy)
    subst this
    rfl
  | succ m ih =>
    intro ys hy
    by_cases hany : ys.any p = true
    · rw [show flattenFuel p (m + 1) ys = flattenFuel p m (flattenStep p ys) by
        simp [flattenFuel, hany]]
      refine ih _ ?_
      have := lsize_flattenStep_lt hany
      omega
    · rw [show flattenFuel p (m + 1) ys = ys by
        simp [flattenFuel, Bool.of_not_eq_true hany]]
      exact Bool.of_not_eq_true hany

/-! ### Sorting lemmas -/

theorem insName_append (x : Quant) (acc : List Quant)
    (h : ∀ y ∈ acc, nameLe y.name x.name = true) :
    insName x acc = acc ++ [x] := by
  induction acc with
  | nil => rfl
  | cons a acc ih =>
    have ha : nameLe a.name x.name = true := h a (by simp)
    simp [insName, ha]
    exact ih fun y hy => h y (by simp [hy])

theorem sortedNames_tail {a : Quant} {l : List Quant}
    (h : sortedNames (a :: l) = true) : sortedNames l = true := by
  cases l with
  | nil => rfl
  | cons b r =>
    have : (nameLe a.name b.name && sortedNames (b :: r)) = true := h
    exact (Bool.and_eq_true_iff.mp this).2

theorem sortedNames_head_le {a : Quant} {l : List Quant}
    (h : sortedNames (a :: l) = true) :
    ∀ b ∈ l, nameLe a.name b.name = true := by
  induction l generalizing a with
  | nil => intro b hb; cases hb
  | cons c r ih =>
    intro b hb
    have hac : nameLe a.name c.name = true ∧ sortedNames (c :: r) = true := by
      have : (nameLe a.name c.name && sortedNames (c :: r)) = true := h
      exact Bool.and_eq_true_iff.mp this
    rcases List.mem_cons.mp hb with rfl | hb'
    · exact hac.1
    · exact nameLe_trans hac.1 (ih hac.2 b hb')

theorem sortedNames_append_cons {acc rest : List Quant} {x : Quant}
    (h : sortedNames (acc ++ x :: rest) = true) :
    ∀ y ∈ acc, nameLe y.name x.name = true := by
  induction acc with
  | nil => intro y hy; cases hy
  | cons a acc ih =>
    intro y hy
    have hcons : sortedNames (a :: (acc ++ x :: rest)) = true := by
      simpa using h
    rcases List.mem_cons.mp hy with rfl | hy'
    · exact sortedNames_head_le hcons x (by simp)
    · exact ih (sortedNames_tail hcons) y hy'

theorem foldl_insName_sorted :
    ∀ (xs acc : List Quant), sortedNames (acc ++ xs) = true →
      xs.foldl (fun acc x => insName x acc) acc = acc ++ xs := by
  intro xs
  induction xs with
  | nil => intro acc _; simp
  | cons x rest ih =>
    intro acc h
    have hins : insName x acc = acc ++ [x] :=
      insName_append x acc (sortedNames_append_cons h)
    have hshift : (acc ++ [x]) ++ rest = acc ++ x :: rest := by simp
    have h' : sortedNames ((acc ++ [x]) ++ rest) = true := by
      rw [hshift]; exact h
    calc (x :: rest).foldl (fun acc x => insName x acc) acc
        = rest.foldl (fun acc x => insName x acc) (insName x acc) := rfl
      _ = rest.foldl (fun acc x => insName x acc) (acc ++ [x]) := by rw [hins]
      _ = (acc ++ [x]) ++ rest := ih (acc ++ [x]) h'
      _ = acc ++ x :: rest := hshift

theorem sortName_sorted_id {xs : List Quant} (h : sortedNames xs = true) :
    sortName xs = xs := by
  simpa [sortName] using foldl_insName_sorted xs [] (by simpa using h)

theorem mem_insName {q x : Quant} {acc : List Quant}
    (h : q ∈ insName x acc) : q = x ∨ q ∈ acc := by
  induction acc with
  | nil => simpa [insName] using h
  | cons a acc ih =>
    by_cases ha : nameLe a.name x.name = true
    · simp [insName, ha] at h
      rcases h with rfl | h'
      · right; simp
      · rcases ih h' with h'' | h''
        · left; exact h''
        · right; simp [h'']
    · simp [insName, Bool.of_not_eq_true ha] at h
      rcases h with rfl | h'
      · left; rfl
      · right; simpa using h'

theorem mem_sortName {q : Quant} {xs : List Quant}
    (h : q ∈ sortName xs) : q ∈ xs := by
  have general : ∀ (ys acc : List Quant),
      q ∈ ys.foldl (fun acc x => insName x acc) acc → q ∈ acc ∨ q ∈ ys := by
    intro ys
    induction ys with
    | nil => intro acc h'; exact Or.inl h'
    | cons y ys ih =>
      intro acc h'
      rcases ih (insName y acc) h' with h'' | h''
      · rcases mem_insName h'' with rfl | h3
        · right; simp
        · left; exact h3
      · right; simp [h'']
  rcases general xs [] h with h' | h'
  · cases h'
  · exact h'

/-! ### Value-invariant lemmas -/

theorem valueInvList_mem {l : List Quant} (h : valueInvList l = true) :
    ∀ q ∈ l, valueInv q = true := by
  induction l with
  | nil => intro q hq; cases hq
  | cons a l ih =>
    intro q hq
    have h' : valueInv a = true ∧ valueInvList l = true := by
      simpa [valueInvList] using h
    rcases List.mem_cons.mp hq with rfl | hq'
    · exact h'.1
    · exact ih h'.2 q hq'

theorem valueInvList_of_mem {l : List Quant}
    (h : ∀ q ∈ l, valueInv q = true) : valueInvList l = true := by
  induction l with
  | nil => rfl
  | cons a l ih =>
    simp only [valueInvList, Bool.and_eq_true]
    exact ⟨h a (by simp), ih fun q hq => h q (by simp [hq])⟩

theorem valueInv_operands {q : Quant} (h : valueInv q = true) :
    ∀ c ∈ q.operands, valueInv c = true := by
  cases q with
  | mk n ops d t v =>
    have h' : valueInvList ops = true := by
      have : ((v.isSome == (t == Qtag.CST)) && valueInvList ops) = true := h
      exact (Bool.and_eq_true_iff.mp this).2
    exact valueInvList_mem h'

theorem valueInv_from_const (v : Rat) (d : Dim) :
    valueInv (Quant.from_const v d) = true := rfl

theorem flattenStep_valueInv {p : Quant → Bool} {xs : List Quant}
    (h : ∀ x ∈ xs, valueInv x = true) :
    ∀ q ∈ flattenStep p xs, valueInv q = true := by
  induction xs with
  | nil => intro q hq; cases hq
  | cons x xs ih =>
    intro q hq
    rcases List.mem_append.mp hq with hq' | hq'
    · by_cases hp : p x = true
      · rw [if_pos hp] at hq'
        exact valueInv_operands (h x (by simp)) q hq'
      · rw [if_neg hp] at hq'
        have : q = x := by simpa using hq'
        subst this
        exact h q (by simp)
    · exact ih (fun y hy => h y (by simp [hy])) q hq'

theorem flattenFuel_valueInv {p : Quant → Bool} :
    ∀ (n : Nat) (xs : List Quant), (∀ x ∈ xs, valueInv x = true) →
      ∀ q ∈ flattenFuel p n xs, valueInv q = true := by
  intro n
  induction n with
  | zero => intro xs h q hq; exact h q hq
  | succ m ih =>
    intro xs h q hq
    by_cases hany : xs.any p = true
    · rw [show flattenFuel p (m + 1) xs = flattenFuel p m (flattenStep p xs) by
        simp [flattenFuel, hany]] at hq
      exact ih (flattenStep p xs) (flattenStep_valueInv h) q hq
    · rw [show flattenFuel p (m + 1) xs = xs by
        simp [flattenFuel, Bool.of_not_eq_true hany]] at hq
      exact h q hq

theorem flattenLoop_valueInv {p : Quant → Bool} {xs : List Quant}
    (h : ∀ x ∈ xs, valueInv x = true) :
    ∀ q ∈ flattenLoop p xs, valueInv q = true :=
  flattenFuel_valueInv _ xs h

/-! ### Canonical-form lemmas and reflexivity of the equality test -/

theorem canonicalList_mem {l : List Quant} (h : canonicalList l = true) :
    ∀ q ∈ l, canonical q = true := by
  induction l with
  | nil => intro q hq; cases hq
  | cons a l ih =>
    intro q hq
    have h' : canonical a = true ∧ canonicalList l = true := by
      simpa [canonicalList] using h
    rcases List.mem_cons.mp hq with rfl | hq'
    · exact h'.1
    · exact ih h'.2 q hq'

mutual

theorem beq_refl : ∀ q : Quant, canonical q = true → beq q q = true
  | .mk n ops d t v, h => by
    have hsplit : canonicalShape t ops v = true ∧ canonicalList ops = true := by
      have : (canonicalShape t ops v && canonicalList ops) = true := h
      exact Bool.and_eq_true_iff.mp this
    cases t with
    | CST => simp [beq]
    | VAR => simp [beq]
    | ADD => simpa [beq] using beqList_refl ops hsplit.2
    | MUL => simpa [beq] using beqList_refl ops hsplit.2
    | DIV =>
      have hlen : ops.length = 2 := by
        have := hsplit.1
        simpa [canonicalShape] using this
      match ops, hlen, hsplit with
      | [a, b], _, hs =>
        have h1 : canonical a = true ∧ (canonical b && canonicalList []) = true := by
          have := hs.2
          simpa [canonicalList] using this
        have h2 : canonical b = true := by
          have := h1.2
          simpa [canonicalList] using this
        simp [beq, beq_refl a h1.1, beq_refl b h2]

theorem beqList_refl : ∀ l : List Quant, canonicalList l = true → beqList l l = true
  | [], _ => rfl
  | q :: qs, h => by
    have h' : canonical q = true ∧ canonicalList qs = true := by
      simpa [canonicalList] using h
    simp [beqList, beq_refl q h'.1, beqList_refl qs h'.2]

end

/-! ### Claim theorems -/

/-- C1: the spec requires `length('l') + length('l')` to produce a single
merged term with rational coefficient 2, because the add reduce step is
supposed to merge structurally-equal non-constant terms.  The code's
`_rewrite_add` returns `None` for every pair, so no merge ever happens:
the result is a two-child `Sum` node with children `[l, l]`. -/
theorem c1_add_same_var_gives_two_child_sum :
    (Quant.length "l").add (.quant (Quant.length "l")) =
      .ok (.mk "__sum__" [Quant.length "l", Quant.length "l"]
        ⟨1, 0, 0⟩ .ADD none) := by
  rfl

/-- C2: the spec requires `(mass('m') * time('t')) / time('t')` to cancel
the shared `time('t')` factor and return `mass('m')`.  The code's
`_factor` returns `(1, x, y)` without extracting any common factor, so
the result is a `Fraction` node `(m*t)/t`, not the variable `m`. -/
theorem c2_div_does_not_cancel_common_factor :
    ((Quant.mass "m").mul (.quant (Quant.time "t"))).div
        (.quant (Quant.time "t")) =
      .ok (.mk "__div__"
        [.mk "__mul__" [Quant.mass "m", Quant.time "t"] ⟨0, 1, 1⟩ .MUL none,
          Quant.time "t"] ⟨0, 1, 0⟩ .DIV none)
    ∧ beq (.mk "__div__"
        [.mk "__mul__" [Quant.mass "m", Quant.time "t"] ⟨0, 1, 1⟩ .MUL none,
          Quant.time "t"] ⟨0, 1, 0⟩ .DIV none) (Quant.mass "m") = false :=
  ⟨rfl, rfl⟩

/-- C6: the spec requires `constant(6) / constant(3)` to yield the single
dimensionless `constant(2)`.  The division does fold the reciprocal into
a constant factor `1/3`, but the multiplication's `_rewrite_mul` never
merges the two constants, so the result is a two-child `Product` node
`(6 * 1/3)`, not `constant(2)`. -/
theorem c6_div_consts_gives_product_not_constant :
    (Quant.from_const 6).div (.quant (Quant.from_const 3)) =
      .ok (.mk "__mul__" [Quant.from_const 6, Quant.from_const (oneDiv 3)]
        ⟨0, 0, 0⟩ .MUL none)
    ∧ beq (.mk "__mul__" [Quant.from_const 6, Quant.from_const (oneDiv 3)]
        ⟨0, 0, 0⟩ .MUL none) (Quant.from_const 2) = false :=
  ⟨rfl, rfl⟩

/-- C3 counterexample: the claim says two sums with different child
counts are never equal.  `__eq__` compares children with a truncating
positional `zip`, so the reachable sums `a+b` (two children) and
`(a+b)+c` (three children) compare equal. -/
theorem c3_counterexample :
    (Quant.length "a").add (.quant (Quant.length "b")) =
      .ok (.mk "__sum__" [Quant.length "a", Quant.length "b"]
        ⟨1, 0, 0⟩ .ADD none)
    ∧ (Quant.mk "__sum__" [Quant.length "a", Quant.length "b"]
        ⟨1, 0, 0⟩ .ADD none).add (.quant (Quant.length "c")) =
      .ok (.mk "__sum__"
        [Quant.length "a", Quant.length "b", Quant.length "c"]
        ⟨1, 0, 0⟩ .ADD none)
    ∧ beq (.mk "__sum__" [Quant.length "a", Quant.length "b"]
        ⟨1, 0, 0⟩ .ADD none)
        (.mk "__sum__" [Quant.length "a", Quant.length "b", Quant.length "c"]
          ⟨1, 0, 0⟩ .ADD none) = true
    ∧ (Quant.mk "__sum__" [Quant.length "a", Quant.length "b"]
        ⟨1, 0, 0⟩ .ADD none).operands.length ≠
      (Quant.mk "__sum__" [Quant.length "a", Quant.length "b", Quant.length "c"]
        ⟨1, 0, 0⟩ .ADD none).operands.length :=
  ⟨rfl, rfl, rfl, by decide⟩

/-- C4 counterexample: the claim says `x + n` with a dimensioned `x` and
a bare number `n` fails the dimension check.  The code coerces `n` with
`Quant.from_const(n, dim)` where `dim` is `x`'s own dimension (line 218),
so `length('l') + 5` succeeds and returns a sum whose constant term
carries the dimension `(1,0,0)`. -/
theorem c4_counterexample :
    (Quant.length "l").add (.num 5) =
      .ok (.mk "__sum__" [Quant.from_const 5 ⟨1, 0, 0⟩, Quant.length "l"]
        ⟨1, 0, 0⟩ .ADD none) := by
  rfl

/-- C5 counterexample: the claim says `x / constant(0)` fails for every
`x`, including `x = constant(0)`.  The zero-numerator rule of
`__truediv__` fires before the denominator is inspected, so
`constant(0) / constant(0)` silently returns `constant(0)`. -/
theorem c5_counterexample :
    (Quant.from_const 0).div (.quant (Quant.from_const 0)) =
      .ok (Quant.from_const 0) := by
  rfl

/-- C7 counterexample: commutativity under the library equality fails
when distinct terms share a display name.  `constant(2)` and
`constant(3)` both carry the synthetic name `__constant__`, so the
stable sort leaves them in operand order and the positional `zip`
equality reports `2+3 ≠ 3+2` and `2*3 ≠ 3*2`. -/
theorem c7_counterexample :
    (Quant.from_const 2).add (.quant (Quant.from_const 3)) =
      .ok (.mk "__sum__" [Quant.from_const 2, Quant.from_const 3]
        ⟨0, 0, 0⟩ .ADD none)
    ∧ (Quant.from_const 3).add (.quant (Quant.from_const 2)) =
      .ok (.mk "__sum__" [Quant.from_const 3, Quant.from_const 2]
        ⟨0, 0, 0⟩ .ADD none)
    ∧ beq (.mk "__sum__" [Quant.from_const 2, Quant.from_const 3]
        ⟨0, 0, 0⟩ .ADD none)
        (.mk "__sum__" [Quant.from_const 3, Quant.from_const 2]
          ⟨0, 0, 0⟩ .ADD none) = false
    ∧ beq ((Quant.from_const 2).mul (.quant (Quant.from_const 3)))
        ((Quant.from_const 3).mul (.quant (Quant.from_const 2))) = false :=
  ⟨rfl, rfl, rfl, rfl⟩

/-- C4 amended: `__add__` coerces a non-`Quant` numeric operand to a
constant carrying `self`'s own dimension, so the subsequent dimension
check always passes and `x + n` succeeds for every quantity `x` and
number `n` — it never raises the dimension-mismatch failure, even when
`x` is dimensioned. -/
theorem c4_amended_add_num_always_succeeds (x : Quant) (n : Rat) :
    ∃ r, x.add (.num n) = .ok r := by
  have hdim : x.dim = (Quant.from_const n x.dim).dim := rfl
  simp only [Quant.add]
  rw [if_pos hdim]
  split
  · exact ⟨_, rfl⟩
  · exact ⟨_, rfl⟩
  · exact ⟨_, rfl⟩

/-- C5 amended: division by the zero constant (of any dimension) is the
fatal `ZeroDivisionError` raised by `1 / Fraction(0)` for every
numerator `x` that is not itself a zero-valued constant; a zero-valued
constant numerator instead short-circuits to the zero constant (see the
counterexample). -/
theorem c5_amended_div_by_zero_const_fails (x : Quant) (d : Dim)
    (h : (x.is_const && x.value == some 0) = false) :
    x.div (.quant (Quant.from_const 0 d)) = .error .zeroDivision := by
  simp only [Quant.div, factor]
  rw [if_neg (by simp [h])]
  rfl

/-- Witness for the amended C5 at the concrete numerator `length('l')`
and the dimensionless zero constant. -/
theorem c5_amended_witness :
    ((Quant.length "l").is_const && (Quant.length "l").value == some 0) = false
    ∧ (Quant.length "l").div (.quant (Quant.from_const 0 ⟨0, 0, 0⟩)) =
        .error .zeroDivision :=
  ⟨rfl, c5_amended_div_by_zero_const_fails (Quant.length "l") ⟨0, 0, 0⟩ rfl⟩

/-- The list side of the equality test, characterized: the truncating
pairwise comparison succeeds iff every positionally-paired pair of
children is recursively equal. -/
theorem beqList_eq_true_iff (l1 l2 : List Quant) :
    beqList l1 l2 = true ↔ ∀ p ∈ l1.zip l2, beq p.1 p.2 = true := by
  induction l1 generalizing l2 with
  | nil =>
    constructor
    · intro _ p hp; cases hp
    · intro _; rfl
  | cons x xs ih =>
    cases l2 with
    | nil =>
      constructor
      · intro _ p hp; cases hp
      · intro _; rfl
    | cons y ys =>
      constructor
      · intro h p hp
        have h' : beq x y = true ∧ beqList xs ys = true := by
          simpa [beqList] using h
        rcases List.mem_cons.mp hp with rfl | hp'
        · exact h'.1
        · exact (ih ys).mp h'.2 p hp'
      · intro h
        have hx : beq x y = true := h (x, y) (by simp)
        have hrest : ∀ p ∈ xs.zip ys, beq p.1 p.2 = true := fun p hp =>
          h p (by simp [hp])
        simp [beqList, hx, (ih ys).mpr hrest]

/-- C3 amended: for two sums (or two products) the library equality is
a truncating positional comparison: it returns true iff the children
paired by position — up to the length of the shorter children list —
are recursively equal.  Child counts are not compared (a sum can equal
a longer sum extending it, see the counterexample) and the comparison
is order-dependent rather than a commutative-multiset matching. -/
theorem c3_amended_positional_zip_equality (s1 s2 : Quant)
    (h : s1.tag = .ADD ∧ s2.tag = .ADD ∨ s1.tag = .MUL ∧ s2.tag = .MUL) :
    (beq s1 s2 = true ↔
      ∀ p ∈ s1.operands.zip s2.operands, beq p.1 p.2 = true) := by
  cases s1 with
  | mk n1 o1 d1 t1 v1 =>
    cases s2 with
    | mk n2 o2 d2 t2 v2 =>
      rcases h with ⟨h1, h2⟩ | ⟨h1, h2⟩ <;>
        (simp only [Quant.tag] at h1 h2; subst h1; subst h2;
          simpa [beq, Quant.operands] using beqList_eq_true_iff o1 o2)

/-- Witness for the amended C3 at the concrete sums `a+b` and
`(a+b)+c`. -/
theorem c3_amended_witness :
    (beq (.mk "__sum__" [Quant.length "a", Quant.length "b"]
        ⟨1, 0, 0⟩ .ADD none)
      (.mk "__sum__" [Quant.length "a", Quant.length "b", Quant.length "c"]
        ⟨1, 0, 0⟩ .ADD none) = true ↔
      ∀ p ∈ ((Quant.mk "__sum__" [Quant.length "a", Quant.length "b"]
          ⟨1, 0, 0⟩ .ADD none).operands.zip
        (Quant.mk "__sum__"
          [Quant.length "a", Quant.length "b", Quant.length "c"]
          ⟨1, 0, 0⟩ .ADD none).operands), beq p.1 p.2 = true) :=
  c3_amended_positional_zip_equality _ _ (Or.inl ⟨rfl, rfl⟩)

/-- Evaluation of `__add__` on two terms that are not sums and are not
dropped by the identity filter: the result is a two-child sum whose
operand order is decided by the stable sort on names. -/
theorem add_pair (x o : Quant) (hdim : x.dim = o.dim)
    (hx : x.is_sum = false) (ho : o.is_sum = false)
    (hkx : (x.is_const && x.value == some 0) = false)
    (hko : (o.is_const && o.value == some 0) = false) :
    x.add (.quant o) =
      .ok (if nameLe x.name o.name = true
        then mkQ "__sum__" [x, o] x.dim .ADD
        else mkQ "__sum__" [o, x] x.dim .ADD) := by
  simp only [Quant.add]
  rw [if_pos hdim]
  rw [flattenLoop_of_any_eq_false (by simp [hx, ho])]
  rw [reduceTerms_add_id]
  have hfil :
      List.filter (fun y => !(y.is_const && y.value == some 0)) [x, o] =
        [x, o] := by
    simp [List.filter, hkx, hko]
  rw [hfil]
  have hsort : sortName [x, o] =
      if nameLe x.name o.name = true then [x, o] else [o, x] := rfl
  rw [hsort]
  by_cases hle : nameLe x.name o.name = true
  · rw [if_pos hle, if_pos hle]
  · rw [if_neg hle, if_neg hle]

/-- Evaluation of `__mul__` on two terms that are not products and are
not dropped by the identity filter: the result is a two-child product
whose operand order is decided by the stable sort on names. -/
theorem mul_pair (x o : Quant)
    (hx : x.is_prod = false) (ho : o.is_prod = false)
    (hkx : (x.is_const && x.value == some 1 &&
      x.dim == (⟨0, 0, 0⟩ : Dim)) = false)
    (hko : (o.is_const && o.value == some 1 &&
      o.dim == (⟨0, 0, 0⟩ : Dim)) = false) :
    x.mul (.quant o) =
      (if nameLe x.name o.name = true
        then mkQ "__mul__" [x, o]
          ⟨x.dim.length + o.dim.length, x.dim.mass + o.dim.mass,
            x.dim.time + o.dim.time⟩ .MUL
        else mkQ "__mul__" [o, x]
          ⟨x.dim.length + o.dim.length, x.dim.mass + o.dim.mass,
            x.dim.time + o.dim.time⟩ .MUL) := by
  simp only [Quant.mul]
  rw [flattenLoop_of_any_eq_false (by simp [hx, ho])]
  rw [reduceTerms_mul_id]
  have hfil :
      List.filter (fun y => !(y.is_const && y.value == some 1 &&
        y.dim == (⟨0, 0, 0⟩ : Dim))) [x, o] = [x, o] := by
    simp [List.filter, hkx, hko]
  rw [hfil]
  have hsort : sortName [x, o] =
      if nameLe x.name o.name = true then [x, o] else [o, x] := rfl
  rw [hsort]
  by_cases hle : nameLe x.name o.name = true
  · rw [if_pos hle, if_pos hle]
  · rw [if_neg hle, if_neg hle]

/-- C7 amended: commutativity under the library equality holds for any
two variable operands — and in general whenever no two distinct flat
terms share a display name — because the stable sort then puts both
operand orders into the same canonical order (or the shared-name terms
are themselves equal).  For two distinct constants it fails (see the
counterexample), since they share the synthetic name `__constant__`. -/
theorem c7_amended_commutativity_for_variables (n1 n2 : String)
    (d1 d2 : Dim) :
    (d1 = d2 → ∃ r1 r2,
      (mkQ n1 [] d1 .VAR).add (.quant (mkQ n2 [] d2 .VAR)) = .ok r1 ∧
      (mkQ n2 [] d2 .VAR).add (.quant (mkQ n1 [] d1 .VAR)) = .ok r2 ∧
      beq r1 r2 = true)
    ∧ beq ((mkQ n1 [] d1 .VAR).mul (.quant (mkQ n2 [] d2 .VAR)))
        ((mkQ n2 [] d2 .VAR).mul (.quant (mkQ n1 [] d1 .VAR))) = true := by
  constructor
  · intro hd
    subst hd
    refine ⟨_, _, add_pair _ _ rfl rfl rfl rfl rfl,
      add_pair _ _ rfl rfl rfl rfl rfl, ?_⟩
    by_cases h12 : nameLe (mkQ n1 [] d1 .VAR).name (mkQ n2 [] d1 .VAR).name = true
    · by_cases h21 : nameLe (mkQ n2 [] d1 .VAR).name (mkQ n1 [] d1 .VAR).name = true
      · have hn : n1 = n2 := nameLe_antisymm h12 h21
        subst hn
        rw [if_pos h12]
        simp [mkQ, beq, beqList]
      · rw [if_pos h12, if_neg h21]
        simp [mkQ, beq, beqList]
    · have h21 : nameLe (mkQ n2 [] d1 .VAR).name (mkQ n1 [] d1 .VAR).name = true := by
        rcases nameLe_total (mkQ n1 [] d1 .VAR).name (mkQ n2 [] d1 .VAR).name with h | h
        · exact absurd h h12
        · exact h
      rw [if_neg h12, if_pos h21]
      simp [mkQ, beq, beqList]
  · rw [mul_pair (mkQ n1 [] d1 .VAR) (mkQ n2 [] d2 .VAR) rfl rfl rfl rfl,
      mul_pair (mkQ n2 [] d2 .VAR) (mkQ n1 [] d1 .VAR) rfl rfl rfl rfl]
    by_cases h12 : nameLe (mkQ n1 [] d1 .VAR).name (mkQ n2 [] d2 .VAR).name = true
    · by_cases h21 : nameLe (mkQ n2 [] d2 .VAR).name (mkQ n1 [] d1 .VAR).name = true
      · have hn : n1 = n2 := nameLe_antisymm h12 h21
        subst hn
        by_cases hd : d1 = d2
        · subst hd
          rw [if_pos h12]
          simp [mkQ, beq, beqList]
        · rw [if_pos h12, if_pos h21]
          simp [mkQ, beq, beqList]
      · rw [if_pos h12, if_neg h21]
        simp [mkQ, beq, beqList]
    · have h21 : nameLe (mkQ n2 [] d2 .VAR).name (mkQ n1 [] d1 .VAR).name = true := by
        rcases nameLe_total (mkQ n1 [] d1 .VAR).name (mkQ n2 [] d2 .VAR).name with h | h
        · exact absurd h h12
        · exact h
      rw [if_neg h12, if_pos h21]
      simp [mkQ, beq, beqList]

/-- Witness for the amended C7 at the concrete length variables `a` and
`b`. -/
theorem c7_amended_witness :
    (∃ r1 r2,
      (mkQ "a" [] (⟨1, 0, 0⟩ : Dim) .VAR).add
          (.quant (mkQ "b" [] (⟨1, 0, 0⟩ : Dim) .VAR)) = .ok r1 ∧
      (mkQ "b" [] (⟨1, 0, 0⟩ : Dim) .VAR).add
          (.quant (mkQ "a" [] (⟨1, 0, 0⟩ : Dim) .VAR)) = .ok r2 ∧
      beq r1 r2 = true)
    ∧ beq ((mkQ "a" [] (⟨1, 0, 0⟩ : Dim) .VAR).mul
          (.quant (mkQ "b" [] (⟨1, 0, 0⟩ : Dim) .VAR)))
        ((mkQ "b" [] (⟨1, 0, 0⟩ : Dim) .VAR).mul
          (.quant (mkQ "a" [] (⟨1, 0, 0⟩ : Dim) .VAR))) = true :=
  ⟨(c7_amended_commutativity_for_variables "a" "b" ⟨1, 0, 0⟩ ⟨1, 0, 0⟩).1 rfl,
    (c7_amended_commutativity_for_variables "a" "b" ⟨1, 0, 0⟩ ⟨1, 0, 0⟩).2⟩

/-- Adding the zero constant to a term that is not a sum and is not a
zero-valued constant returns the term itself. -/
theorem add_zero_single (x : Quant) (hx : x.is_sum = false)
    (hkx : (x.is_const && x.value == some 0) = false) :
    x.add (.quant (Quant.from_const 0 x.dim)) = .ok x := by
  simp only [Quant.add]
  rw [if_pos (show x.dim = (Quant.from_const 0 x.dim).dim from rfl)]
  rw [flattenLoop_of_any_eq_false (by simp [hx])]
  rw [reduceTerms_add_id]
  have hpx : (fun y => !(y.is_const && y.value == some 0)) x = true := by
    show (!(x.is_const && x.value == some 0)) = true
    rw [hkx]
    rfl
  have hfil : List.filter (fun y => !(y.is_const && y.value == some 0))
      [x, Quant.from_const 0 x.dim] = [x] := by
    rw [@List.filter_cons_of_pos Quant
        (fun y => !(y.is_const && y.value == some 0)) x
        [Quant.from_const 0 x.dim] hpx,
      @List.filter_cons_of_neg Quant
        (fun y => !(y.is_const && y.value == some 0))
        (Quant.from_const 0 x.dim) [] (by simp),
      List.filter_nil]
  rw [hfil]
  rfl

/-- Adding the zero constant to a zero-valued constant collapses to the
zero constant of the operand's dimension. -/
theorem add_zero_dropped (x : Quant) (hx : x.is_sum = false)
    (hkx : (x.is_const && x.value == some 0) = true) :
    x.add (.quant (Quant.from_const 0 x.dim)) =
      .ok (Quant.from_const 0 x.dim) := by
  simp only [Quant.add]
  rw [if_pos (show x.dim = (Quant.from_const 0 x.dim).dim from rfl)]
  rw [flattenLoop_of_any_eq_false (by simp [hx])]
  rw [reduceTerms_add_id]
  have hfil : List.filter (fun y => !(y.is_const && y.value == some 0))
      [x, Quant.from_const 0 x.dim] = [] := by
    rw [@List.filter_cons_of_neg Quant
        (fun y => !(y.is_const && y.value == some 0)) x
        [Quant.from_const 0 x.dim] (by simp [hkx]),
      @List.filter_cons_of_neg Quant
        (fun y => !(y.is_const && y.value == some 0))
        (Quant.from_const 0 x.dim) [] (by simp),
      List.filter_nil]
  rw [hfil]
  rfl

/-- Adding the zero constant to a canonical sum rebuilds the same sum:
the flattening inlines the children, the filter drops exactly the added
zero, and the sort leaves the already-sorted children unchanged. -/
theorem add_zero_canonical_sum (n : String) (ops : List Quant) (d : Dim)
    (v : Option Rat)
    (h : canonical (.mk n ops d .ADD v) = true) :
    (Quant.mk n ops d .ADD v).add
        (.quant (Quant.from_const 0 (Quant.mk n ops d .ADD v).dim)) =
      .ok (mkQ "__sum__" ops d .ADD) := by
  have hsplit : canonicalShape .ADD ops v = true ∧ canonicalList ops = true := by
    have : (canonicalShape .ADD ops v && canonicalList ops) = true := h
    exact Bool.and_eq_true_iff.mp this
  have hshape := hsplit.1
  have hlen : 2 ≤ ops.length := by
    have : (decide (2 ≤ ops.length) &&
        (ops.all (fun c => !c.is_sum && !(c.is_const && c.value == some 0)) &&
          sortedNames ops)) = true := by
      simpa [canonicalShape, Bool.and_assoc] using hshape
    exact of_decide_eq_true (Bool.and_eq_true_iff.mp this).1
  have hall : ∀ c ∈ ops,
      c.is_sum = false ∧ (c.is_const && c.value == some 0) = false := by
    intro c hc
    have hsh : (decide (2 ≤ ops.length) &&
        (ops.all (fun c => !c.is_sum && !(c.is_const && c.value == some 0)) &&
          sortedNames ops)) = true := by
      simpa [canonicalShape, Bool.and_assoc] using hshape
    have hA := (Bool.and_eq_true_iff.mp (Bool.and_eq_true_iff.mp hsh).2).1
    have hcc := List.all_eq_true.mp hA c hc
    have h1 := (Bool.and_eq_true_iff.mp hcc).1
    have h2 := (Bool.and_eq_true_iff.mp hcc).2
    rw [Bool.not_eq_true'] at h1 h2
    exact ⟨h1, h2⟩
  have hsorted : sortedNames ops = true := by
    have hsh : (decide (2 ≤ ops.length) &&
        (ops.all (fun c => !c.is_sum && !(c.is_const && c.value == some 0)) &&
          sortedNames ops)) = true := by
      simpa [canonicalShape, Bool.and_assoc] using hshape
    exact (Bool.and_eq_true_iff.mp (Bool.and_eq_true_iff.mp hsh).2).2
  simp only [Quant.add]
  rw [if_pos (show (Quant.mk n ops d .ADD v).dim =
    (Quant.from_const 0 (Quant.mk n ops d .ADD v).dim).dim from rfl)]
  rw [flattenLoop_pair_left _ _ rfl rfl (by
    rw [List.any_eq_false]
    intro c hc
    rcases List.mem_append.mp hc with hc' | hc'
    · simp [(hall c hc').1]
    · have hcq : c = Quant.from_const 0 (Quant.mk n ops d .ADD v).dim := by
        simpa using hc'
      subst hcq
      simp)]
  rw [reduceTerms_add_id]
  have hfil : List.filter (fun y => !(y.is_const && y.value == some 0))
      ((Quant.mk n ops d .ADD v).operands ++
        [Quant.from_const 0 (Quant.mk n ops d .ADD v).dim]) = ops := by
    rw [List.filter_append]
    have h1 : List.filter (fun y => !(y.is_const && y.value == some 0))
        (Quant.mk n ops d .ADD v).operands = ops := by
      refine List.filter_eq_self.mpr ?_
      intro c hc
      have hk := (hall c (by simpa [Quant.operands] using hc)).2
      simp [hk]
    have h2 : List.filter (fun y => !(y.is_const && y.value == some 0))
        [Quant.from_const 0 (Quant.mk n ops d .ADD v).dim] = [] := by
      rw [@List.filter_cons_of_neg Quant
          (fun y => !(y.is_const && y.value == some 0))
          (Quant.from_const 0 (Quant.mk n ops d .ADD v).dim) [] (by simp),
        List.filter_nil]
    rw [h1, h2, List.append_nil]
  rw [hfil]
  rw [sortName_sorted_id hsorted]
  cases ops with
  | nil => simp at hlen
  | cons t1 rest =>
    cases rest with
    | nil => simp at hlen
    | cons t2 rest2 => rfl

/-- Multiplying a term that is not a product and is not the
dimensionless one constant by `constant(1)` returns the term itself. -/
theorem mul_one_single (x : Quant) (hx : x.is_prod = false)
    (hkx : (x.is_const && x.value == some 1 &&
      x.dim == (⟨0, 0, 0⟩ : Dim)) = false) :
    x.mul (.quant (Quant.from_const 1)) = x := by
  simp only [Quant.mul]
  rw [flattenLoop_of_any_eq_false (by simp [hx])]
  rw [reduceTerms_mul_id]
  have hfil : List.filter (fun y => !(y.is_const && y.value == some 1 &&
      y.dim == (⟨0, 0, 0⟩ : Dim))) [x, Quant.from_const 1] = [x] := by
    rw [@List.filter_cons_of_pos Quant
        (fun y => !(y.is_const && y.value == some 1 &&
          y.dim == (⟨0, 0, 0⟩ : Dim))) x
        [Quant.from_const 1] (by simp [hkx]),
      @List.filter_cons_of_neg Quant
        (fun y => !(y.is_const && y.value == some 1 &&
          y.dim == (⟨0, 0, 0⟩ : Dim)))
        (Quant.from_const 1) [] (by simp),
      List.filter_nil]
  rw [hfil]
  rfl

/-- Multiplying the dimensionless one constant by `constant(1)`
collapses to the one constant of the result dimension. -/
theorem mul_one_dropped (x : Quant) (hx : x.is_prod = false)
    (hkx : (x.is_const && x.value == some 1 &&
      x.dim == (⟨0, 0, 0⟩ : Dim)) = true) :
    x.mul (.quant (Quant.from_const 1)) =
      Quant.from_const 1
        ⟨x.dim.length + 0, x.dim.mass + 0, x.dim.time + 0⟩ := by
  simp only [Quant.mul]
  rw [flattenLoop_of_any_eq_false (by simp [hx])]
  rw [reduceTerms_mul_id]
  have hfil : List.filter (fun y => !(y.is_const && y.value == some 1 &&
      y.dim == (⟨0, 0, 0⟩ : Dim))) [x, Quant.from_const 1] = [] := by
    rw [@List.filter_cons_of_neg Quant
        (fun y => !(y.is_const && y.value == some 1 &&
          y.dim == (⟨0, 0, 0⟩ : Dim))) x
        [Quant.from_const 1] (by simp [hkx]),
      @List.filter_cons_of_neg Quant
        (fun y => !(y.is_const && y.value == some 1 &&
          y.dim == (⟨0, 0, 0⟩ : Dim)))
        (Quant.from_const 1) [] (by simp),
      List.filter_nil]
  rw [hfil]
  rfl

/-- Multiplying a canonical product by `constant(1)` rebuilds the same
product (up to the node's stored dimension, which gains `+ 0`
componentwise). -/
theorem mul_one_canonical_prod (n : String) (ops : List Quant) (d : Dim)
    (v : Option Rat)
    (h : canonical (.mk n ops d .MUL v) = true) :
    (Quant.mk n ops d .MUL v).mul (.quant (Quant.from_const 1)) =
      mkQ "__mul__" ops
        ⟨d.length + 0, d.mass + 0, d.time + 0⟩ .MUL := by
  have hsplit : canonicalShape .MUL ops v = true ∧ canonicalList ops = true :=
    Bool.and_eq_true_iff.mp h
  have hshape := hsplit.1
  have hsh : (decide (2 ≤ ops.length) &&
      (ops.all (fun c => !c.is_prod && !(c.is_const && c.value == some 1 &&
        c.dim == (⟨0, 0, 0⟩ : Dim))) && sortedNames ops)) = true := by
    simpa [canonicalShape, Bool.and_assoc] using hshape
  have hlen : 2 ≤ ops.length :=
    of_decide_eq_true (Bool.and_eq_true_iff.mp hsh).1
  have hall : ∀ c ∈ ops, c.is_prod = false ∧
      (c.is_const && c.value == some 1 && c.dim == (⟨0, 0, 0⟩ : Dim)) = false := by
    intro c hc
    have hA := (Bool.and_eq_true_iff.mp (Bool.and_eq_true_iff.mp hsh).2).1
    have hcc := List.all_eq_true.mp hA c hc
    have h1 := (Bool.and_eq_true_iff.mp hcc).1
    have h2 := (Bool.and_eq_true_iff.mp hcc).2
    rw [Bool.not_eq_true'] at h1 h2
    exact ⟨h1, h2⟩
  have hsorted : sortedNames ops = true :=
    (Bool.and_eq_true_iff.mp (Bool.and_eq_true_iff.mp hsh).2).2
  simp only [Quant.mul]
  rw [flattenLoop_pair_left _ _ rfl rfl (by
    rw [List.any_eq_false]
    intro c hc
    rcases List.mem_append.mp hc with hc' | hc'
    · simp [(hall c hc').1]
    · have hcq : c = Quant.from_const 1 := by simpa using hc'
      subst hcq
      simp)]
  rw [reduceTerms_mul_id]
  have hfil : List.filter (fun y => !(y.is_const && y.value == some 1 &&
      y.dim == (⟨0, 0, 0⟩ : Dim)))
      ((Quant.mk n ops d .MUL v).operands ++ [Quant.from_const 1]) = ops := by
    rw [List.filter_append]
    have h1 : List.filter (fun y => !(y.is_const && y.value == some 1 &&
        y.dim == (⟨0, 0, 0⟩ : Dim))) (Quant.mk n ops d .MUL v).operands = ops := by
      refine List.filter_eq_self.mpr ?_
      intro c hc
      have hk := (hall c (by simpa [Quant.operands] using hc)).2
      simp [hk]
    have h2 : List.filter (fun y => !(y.is_const && y.value == some 1 &&
        y.dim == (⟨0, 0, 0⟩ : Dim))) [Quant.from_const 1] = [] := by
      rw [@List.filter_cons_of_neg Quant
          (fun y => !(y.is_const && y.value == some 1 &&
            y.dim == (⟨0, 0, 0⟩ : Dim)))
          (Quant.from_const 1) [] (by simp),
        List.filter_nil]
    rw [h1, h2, List.append_nil]
  rw [hfil]
  rw [sortName_sorted_id hsorted]
  cases ops with
  | nil => simp at hlen
  | cons t1 rest =>
    cases rest with
    | nil => simp at hlen
    | cons t2 rest2 => rfl

/-- C8: identity laws.  For every canonical quantity `x`,
`x + constant(0, x.dimension)` succeeds and is structurally equal to
`x`, and `x * constant(1)` is structurally equal to `x`: the identity
element is stripped by the filter pass and the operand comes back
unchanged up to the library's structural equality. -/
theorem c8_identity_laws (x : Quant) (h : canonical x = true) :
    (∃ r, x.add (.quant (Quant.from_const 0 x.dim)) = .ok r ∧
      beq r x = true)
    ∧ beq (x.mul (.quant (Quant.from_const 1))) x = true := by
  cases x with
  | mk n ops d t v =>
    have hsplit : canonicalShape t ops v = true ∧ canonicalList ops = true :=
      Bool.and_eq_true_iff.mp h
    constructor
    · cases t with
      | ADD =>
        refine ⟨_, add_zero_canonical_sum n ops d v h, ?_⟩
        show beq (.mk "__sum__" ops d .ADD none) (.mk n ops d .ADD v) = true
        simpa [beq] using beqList_refl ops hsplit.2
      | CST =>
        by_cases hzero : ((Quant.mk n ops d .CST v).is_const &&
            (Quant.mk n ops d .CST v).value == some 0) = true
        · refine ⟨_, add_zero_dropped _ rfl hzero, ?_⟩
          have hv : v = some 0 := by
            simpa [Quant.is_const, Quant.tag, Quant.value] using hzero
          subst hv
          simp [Quant.from_const, mkQ, beq]
        · have hzf : ((Quant.mk n ops d .CST v).is_const &&
              (Quant.mk n ops d .CST v).value == some 0) = false := by
            cases hb : ((Quant.mk n ops d .CST v).is_const &&
                (Quant.mk n ops d .CST v).value == some 0) with
            | true => exact absurd hb hzero
            | false => rfl
          exact ⟨_, add_zero_single _ rfl hzf, beq_refl _ h⟩
      | VAR => exact ⟨_, add_zero_single _ rfl rfl, beq_refl _ h⟩
      | MUL => exact ⟨_, add_zero_single _ rfl rfl, beq_refl _ h⟩
      | DIV => exact ⟨_, add_zero_single _ rfl rfl, beq_refl _ h⟩
    · cases t with
      | MUL =>
        rw [mul_one_canonical_prod n ops d v h]
        show beq (.mk "__mul__" ops
          ⟨d.length + 0, d.mass + 0, d.time + 0⟩ .MUL none)
          (.mk n ops d .MUL v) = true
        simpa [beq] using beqList_refl ops hsplit.2
      | CST =>
        by_cases hone : ((Quant.mk n ops d .CST v).is_const &&
            (Quant.mk n ops d .CST v).value == some 1 &&
            (Quant.mk n ops d .CST v).dim == (⟨0, 0, 0⟩ : Dim)) = true
        · rw [mul_one_dropped (Quant.mk n ops d .CST v) rfl hone]
          have hv : v = some 1 := by
            have := (Bool.and_eq_true_iff.mp hone).1
            simpa [Quant.is_const, Quant.tag, Quant.value] using this
          subst hv
          simp [Quant.from_const, mkQ, beq]
        · have hof : ((Quant.mk n ops d .CST v).is_const &&
              (Quant.mk n ops d .CST v).value == some 1 &&
              (Quant.mk n ops d .CST v).dim == (⟨0, 0, 0⟩ : Dim)) = false := by
            cases hb : ((Quant.mk n ops d .CST v).is_const &&
                (Quant.mk n ops d .CST v).value == some 1 &&
                (Quant.mk n ops d .CST v).dim == (⟨0, 0, 0⟩ : Dim)) with
            | true => exact absurd hb hone
            | false => rfl
          rw [mul_one_single (Quant.mk n ops d .CST v) rfl hof]
          exact beq_refl _ h
      | VAR =>
        rw [mul_one_single (Quant.mk n ops d .VAR v) rfl rfl]
        exact beq_refl _ h
      | ADD =>
        rw [mul_one_single (Quant.mk n ops d .ADD v) rfl rfl]
        exact beq_refl _ h
      | DIV =>
        rw [mul_one_single (Quant.mk n ops d .DIV v) rfl rfl]
        exact beq_refl _ h

/-- Witness for C8 at the concrete canonical variable `length('l')`. -/
theorem c8_witness :
    canonical (Quant.length "l") = true
    ∧ ((∃ r, (Quant.length "l").add
          (.quant (Quant.from_const 0 (Quant.length "l").dim)) = .ok r ∧
        beq r (Quant.length "l") = true)
      ∧ beq ((Quant.length "l").mul (.quant (Quant.from_const 1)))
          (Quant.length "l") = true) :=
  ⟨rfl, c8_identity_laws (Quant.length "l") rfl⟩

/-- A numeric operand of `__add__` behaves exactly like the constant it
is coerced to (`Quant.from_const(other, dim)` with `self`'s dimension). -/
theorem add_num_eq (x : Quant) (n : Rat) :
    x.add (.num n) = x.add (.quant (Quant.from_const n x.dim)) := rfl

/-- A numeric operand of `__mul__` behaves exactly like the
dimensionless constant it is coerced to. -/
theorem mul_num_eq (x : Quant) (n : Rat) :
    x.mul (.num n) = x.mul (.quant (Quant.from_const n)) := rfl

/-- A numeric operand of `__truediv__` behaves exactly like the
dimensionless constant it is coerced to. -/
theorem div_num_eq (x : Quant) (n : Rat) :
    x.div (.num n) = x.div (.quant (Quant.from_const n)) := rfl

/-- The value invariant is preserved by `__add__`. -/
theorem valueInv_add_core (x o : Quant) (hx : valueInv x = true)
    (ho : valueInv o = true) :
    ∀ r, x.add (.quant o) = .ok r → valueInv r = true := by
  intro r hr
  by_cases hdim : x.dim = o.dim
  · simp only [Quant.add] at hr
    rw [if_pos hdim, reduceTerms_add_id] at hr
    have hmem : ∀ q ∈ sortName
        (List.filter (fun y => !(y.is_const && y.value == some 0))
          (flattenLoop Quant.is_sum [x, o])), valueInv q = true := by
      intro q hq
      have h1 := mem_sortName hq
      have h2 := (List.mem_filter.mp h1).1
      refine flattenLoop_valueInv ?_ q h2
      intro z hz
      rcases List.mem_cons.mp hz with rfl | hz'
      · exact hx
      · have : z = o := by simpa using hz'
        subst this
        exact ho
    cases hL : sortName
        (List.filter (fun y => !(y.is_const && y.value == some 0))
          (flattenLoop Quant.is_sum [x, o])) with
    | nil =>
      rw [hL] at hr
      have : Quant.from_const 0 x.dim = r := by
        simpa using hr
      subst this
      rfl
    | cons t1 rest =>
      cases rest with
      | nil =>
        rw [hL] at hr
        have ht : t1 = r := by simpa using hr
        subst ht
        exact hmem t1 (by rw [hL]; simp)
      | cons t2 rest2 =>
        rw [hL] at hr
        have : mkQ "__sum__" (t1 :: t2 :: rest2) x.dim .ADD = r := by
          simpa using hr
        subst this
        show ((Option.isSome (none : Option Rat) == (Qtag.ADD == Qtag.CST)) &&
          valueInvList (t1 :: t2 :: rest2)) = true
        have : valueInvList (t1 :: t2 :: rest2) = true := by
          refine valueInvList_of_mem ?_
          intro z hz
          exact hmem z (by rw [hL]; exact hz)
        rw [this]
        rfl
  · simp only [Quant.add] at hr
    rw [if_neg hdim] at hr
    exact absurd hr (by simp)

/-- The value invariant is preserved by `__mul__`. -/
theorem valueInv_mul_core (x o : Quant) (hx : valueInv x = true)
    (ho : valueInv o = true) : valueInv (x.mul (.quant o)) = true := by
  simp only [Quant.mul]
  rw [reduceTerms_mul_id]
  have hmem : ∀ q ∈ sortName
      (List.filter (fun y => !(y.is_const && y.value == some 1 &&
        y.dim == (⟨0, 0, 0⟩ : Dim)))
        (flattenLoop Quant.is_prod [x, o])), valueInv q = true := by
    intro q hq
    have h1 := mem_sortName hq
    have h2 := (List.mem_filter.mp h1).1
    refine flattenLoop_valueInv ?_ q h2
    intro z hz
    rcases List.mem_cons.mp hz with rfl | hz'
    · exact hx
    · have : z = o := by simpa using hz'
      subst this
      exact ho
  cases hL : sortName
      (List.filter (fun y => !(y.is_const && y.value == some 1 &&
        y.dim == (⟨0, 0, 0⟩ : Dim)))
        (flattenLoop Quant.is_prod [x, o])) with
  | nil => rfl
  | cons t1 rest =>
    cases rest with
    | nil => exact hmem t1 (by rw [hL]; simp)
    | cons t2 rest2 =>
      show ((Option.isSome (none : Option Rat) == (Qtag.MUL == Qtag.CST)) &&
        valueInvList (t1 :: t2 :: rest2)) = true
      have : valueInvList (t1 :: t2 :: rest2) = true := by
        refine valueInvList_of_mem ?_
        intro z hz
        exact hmem z (by rw [hL]; exact hz)
      rw [this]
      rfl

/-- The value invariant is preserved by `__truediv__`. -/
theorem valueInv_div_core (x o : Quant) (hx : valueInv x = true)
    (ho : valueInv o = true) :
    ∀ r, x.div (.quant o) = .ok r → valueInv r = true := by
  intro r hr
  simp only [Quant.div, factor] at hr
  by_cases hz : (x.is_const && x.value == some 0) = true
  · rw [if_pos hz] at hr
    have h0 : Quant.from_const 0
        ⟨x.dim.length - o.dim.length, x.dim.mass - o.dim.mass,
          x.dim.time - o.dim.time⟩ = r := by
      simpa using hr
    subst h0
    rfl
  · rw [if_neg hz] at hr
    have hfrac : ∀ dd : Dim, mkQ "__div__" [x, o] dd .DIV = r →
        valueInv r = true := by
      intro dd hdd
      subst hdd
      show ((Option.isSome (none : Option Rat) == (Qtag.DIV == Qtag.CST)) &&
        valueInvList [x, o]) = true
      have hl : valueInvList [x, o] = true :=
        valueInvList_of_mem (by
          intro z hz'
          rcases List.mem_cons.mp hz' with rfl | hz''
          · exact hx
          · have hzo : z = o := by simpa using hz''
            subst hzo
            exact ho)
      rw [hl]
      rfl
    cases hto : o.tag with
    | CST =>
      rw [hto] at hr
      cases hvo : o.value with
      | none =>
        rw [hvo] at hr
        have hr' : (Except.ok (mkQ "__div__" [x, o]
            ⟨x.dim.length - o.dim.length, x.dim.mass - o.dim.mass,
              x.dim.time - o.dim.time⟩ .DIV) : Except QErr Quant) = .ok r := hr
        exact hfrac _ (by simpa using hr')
      | some v =>
        rw [hvo] at hr
        have hr' : (if v = 0 then (Except.error QErr.zeroDivision :
              Except QErr Quant)
            else .ok (x.mul (.quant (Quant.from_const (oneDiv v)
              (Dim.neg o.dim))))) = .ok r := hr
        by_cases hv0 : v = 0
        · rw [if_pos hv0] at hr'
          exact absurd hr' (by simp)
        · rw [if_neg hv0] at hr'
          have hm : x.mul (.quant (Quant.from_const (oneDiv v)
              (Dim.neg o.dim))) = r := by
            simpa using hr'
          subst hm
          exact valueInv_mul_core x _ hx rfl
    | VAR =>
      rw [hto] at hr
      have hr' : (Except.ok (mkQ "__div__" [x, o]
          ⟨x.dim.length - o.dim.length, x.dim.mass - o.dim.mass,
            x.dim.time - o.dim.time⟩ .DIV) : Except QErr Quant) = .ok r := hr
      exact hfrac _ (by simpa using hr')
    | ADD =>
      rw [hto] at hr
      have hr' : (Except.ok (mkQ "__div__" [x, o]
          ⟨x.dim.length - o.dim.length, x.dim.mass - o.dim.mass,
            x.dim.time - o.dim.time⟩ .DIV) : Except QErr Quant) = .ok r := hr
      exact hfrac _ (by simpa using hr')
    | MUL =>
      rw [hto] at hr
      have hr' : (Except.ok (mkQ "__div__" [x, o]
          ⟨x.dim.length - o.dim.length, x.dim.mass - o.dim.mass,
            x.dim.time - o.dim.time⟩ .DIV) : Except QErr Quant) = .ok r := hr
      exact hfrac _ (by simpa using hr')
    | DIV =>
      rw [hto] at hr
      have hr' : (Except.ok (mkQ "__div__" [x, o]
          ⟨x.dim.length - o.dim.length, x.dim.mass - o.dim.mass,
            x.dim.time - o.dim.time⟩ .DIV) : Except QErr Quant) = .ok r := hr
      exact hfrac _ (by simpa using hr')

/-- C9: every quantity reachable through the public constructors and
the arithmetic operators satisfies the value/tag invariant of
`__init__`: the `value` field holds a rational exactly on constant
nodes and is `None` on every variable, sum, product and fraction node,
recursively. -/
theorem c9_value_field_invariant (q : Quant) (h : Reachable q) :
    valueInv q = true := by
  induction h with
  | lengthVar n => rfl
  | massVar n => rfl
  | timeVar n => rfl
  | constQ v d => rfl
  | addQ x y r _ _ hr ihx ihy => exact valueInv_add_core x y ihx ihy r hr
  | addNum x n r _ hr ihx =>
    rw [add_num_eq] at hr
    exact valueInv_add_core x (Quant.from_const n x.dim) ihx rfl r hr
  | mulQ x y _ _ ihx ihy => exact valueInv_mul_core x y ihx ihy
  | mulNum x n _ ihx =>
    rw [mul_num_eq]
    exact valueInv_mul_core x (Quant.from_const n) ihx rfl
  | divQ x y r _ _ hr ihx ihy => exact valueInv_div_core x y ihx ihy r hr
  | divNum x n r _ hr ihx =>
    rw [div_num_eq] at hr
    exact valueInv_div_core x (Quant.from_const n) ihx rfl r hr

/-- Witness for C9 at the concrete reachable variable `length('l')`. -/
theorem c9_witness : valueInv (Quant.length "l") = true :=
  c9_value_field_invariant (Quant.length "l") (.lengthVar "l")

/-- C10: equality against a non-`Quant` operand compares the stored
`value` field with the operand.  Under the value invariant, a constant
(value `some v`) compares equal to a bare number exactly when the
rational values agree (in particular `constant(0) == 0`), while a
variable, sum, product or fraction (value `None`) compares equal only
to `None`. -/
theorem c10_external_comparison (q : Quant) (hq : valueInv q = true) :
    (q.tag = .CST → ∃ v, q.value = some v ∧
      ∀ o : Option Rat, (beqExt q o = true ↔ o = some v))
    ∧ (q.tag ≠ .CST → q.value = none ∧
      ∀ o : Option Rat, (beqExt q o = true ↔ o = none)) := by
  cases q with
  | mk n ops d t v =>
    have h1 : (v.isSome == (t == Qtag.CST)) = true :=
      (Bool.and_eq_true_iff.mp hq).1
    constructor
    · intro ht
      have ht' : t = .CST := ht
      subst ht'
      cases v with
      | none => simp at h1
      | some vv =>
        refine ⟨vv, rfl, ?_⟩
        intro o
        show ((some vv == o) = true ↔ o = some vv)
        constructor
        · intro h
          exact (beq_iff_eq.mp h).symm
        · intro h
          subst h
          simp
    · intro ht
      have ht' : (t == Qtag.CST) = false := by
        cases t <;> simp_all [Quant.tag]
      rw [ht'] at h1
      cases v with
      | some vv => simp at h1
      | none =>
        refine ⟨rfl, ?_⟩
        intro o
        show ((none == o) = true ↔ o = none)
        constructor
        · intro h
          exact (beq_iff_eq.mp h).symm
        · intro h
          subst h
          simp

/-- Witness for C10 at the concrete constant `constant(0)` and the
concrete variable `length('l')`. -/
theorem c10_witness :
    (∃ v, (Quant.from_const 0).value = some v ∧
      ∀ o : Option Rat, (beqExt (Quant.from_const 0) o = true ↔ o = some v))
    ∧ ((Quant.length "l").value = none ∧
      ∀ o : Option Rat, (beqExt (Quant.length "l") o = true ↔ o = none)) :=
  ⟨(c10_external_comparison (Quant.from_const 0) rfl).1 rfl,
    (c10_external_comparison (Quant.length "l") rfl).2
      (by simp [Quant.length, mkQ, Quant.tag])⟩

end Quantity
